import Mathlib

/-!
Verification development for the `symtool` utility (src/symtool/src/main.rs).

Modelling conventions:
* Rust `&str` values are modelled as `List Char`.  Positions are character
  indices; for ASCII text (all inputs appearing in the repository's intended
  use and in every concrete example below) these coincide with Rust's byte
  offsets, and `line.as_bytes()` is modelled by `lineBytes` which maps each
  character to its code point (for ASCII, its byte).  A non-ASCII character
  yields one pseudo-byte ≥ 0x80, which — like every byte of a real UTF-8
  multi-byte sequence — is never a hexadecimal digit.
* Rust's `char::is_ascii_alphabetic`, `is_ascii_alphanumeric`,
  `is_ascii_hexdigit` and `is_ascii_whitespace` are modelled exactly.
  `char::is_numeric` (Unicode) is modelled on its ASCII fragment, where it
  coincides with `is_ascii_digit`.
* The two unbounded `while` loops (`extract`'s scan and `update`'s backward
  line scan) are modelled with an explicit fuel argument so that every
  definition is executable by the kernel; both loops consume at least one
  character (resp. strictly decrease the scan index) per iteration, so the
  fuel `length + 1` supplied by the entry points is never exhausted.
-/

namespace Symtool

/-- Rust `char::is_ascii_whitespace`: space, tab, line feed, form feed,
carriage return. -/
def isAsciiWhitespace (c : Char) : Bool :=
  c == ' ' || c == '\t' || c == '\n' || c == Char.ofNat 12 || c == '\r'

/-- Rust `char::is_ascii_hexdigit`. -/
def isAsciiHexDigit (c : Char) : Bool :=
  c.isDigit || (97 ≤ c.toNat && c.toNat ≤ 102) || (65 ≤ c.toNat && c.toNat ≤ 70)

/-- Rust `c.is_ascii_alphabetic() || c == '_'`: the characters that may start
a C identifier (used by `take_c_token`, the symbol scan of `line_symaddr`,
and — negated — by `extract`'s trailing skip). -/
def isSymbolStartChar (c : Char) : Bool :=
  c.isAlpha || c == '_'

/-- Rust `c.is_ascii_alphanumeric() || c == '_'`: the characters that may
continue a C identifier / map symbol. -/
def isSymbolChar (c : Char) : Bool :=
  c.isAlphanum || c == '_'

/-- Rust `char::is_numeric`, modelled on ASCII (where it coincides with
`is_ascii_digit`; the non-ASCII Unicode numeric code points are outside the
model). -/
def charIsNumeric (c : Char) : Bool :=
  c.isDigit

/-- `line.as_bytes()`, at character granularity (exact for ASCII text). -/
def lineBytes (line : List Char) : List Nat :=
  line.map Char.toNat

/-- The per-window inner loop of `line_symaddr`'s address search: the value of
one hexadecimal digit byte (`b'0'..=b'9'`, `b'a'..=b'f'`, `b'A'..=b'F'`), or
`none` for any other byte. -/
def hexDigitVal (b : Nat) : Option Nat :=
  if 48 ≤ b ∧ b ≤ 57 then some (b - 48)
  else if 97 ≤ b ∧ b ≤ 102 then some (b - 97 + 10)
  else if 65 ≤ b ∧ b ≤ 70 then some (b - 65 + 10)
  else none

/-- `cur_addr = (cur_addr << 4) | n` folded over a window's bytes; `none` as
soon as a byte is not a hexadecimal digit (the `continue 'addr_window`).  Over
exactly 8 hex digits the `u32` arithmetic never wraps, so plain `Nat`
arithmetic is exact. -/
def windowValGo : Nat → List Nat → Option Nat
  | acc, [] => some acc
  | acc, b :: bs =>
    match hexDigitVal b with
    | some n => windowValGo (acc * 16 + n) bs
    | none => none

def windowVal (bs : List Nat) : Option Nat :=
  windowValGo 0 bs

/-- The `'addr_window` loop of `line_symaddr`: slide over
`line.as_bytes().windows(8).enumerate()`, return `(cur_addr, i)` for the first
window of 8 hex digits whose value lies in `[0x80000000, 0x81800000)`, and the
sentinel `(0, 0)` (the initial values of `addr` and `addr_start`) when no
window qualifies. -/
def findAddrGo : Nat → List Nat → Nat × Nat
  | _, [] => (0, 0)
  | i, b :: bs =>
    if bs.length + 1 < 8 then (0, 0)
    else
      match windowVal ((b :: bs).take 8) with
      | some v =>
        if 0x80000000 ≤ v ∧ v < 0x81800000 then (v, i)
        else findAddrGo (i + 1) bs
      | none => findAddrGo (i + 1) bs

/-- `line.char_indices()`, starting from position `n`. -/
def charIndicesFrom : Nat → List Char → List (Nat × Char)
  | _, [] => []
  | n, c :: cs => (n, c) :: charIndicesFrom (n + 1) cs

def charIndices (line : List Char) : List (Nat × Char) :=
  charIndicesFrom 0 line

/-- The `'find_start_i` loop of `line_symaddr`'s symbol search.  Phase
`false` is the inner scan loop: a numeric character switches to the hex-skip
phase, an identifier-start character is returned together with the iterator's
remainder, anything else is skipped.  Phase `true` is the `skip hex digits`
loop: it consumes characters while they are hexadecimal digits, and the first
non-hex character is consumed by the very `next()` call that ends the loop,
after which the scan resumes in phase `false`.  End of input in either phase
is the `None => return None` arm. -/
def symbolStart : Bool → List (Nat × Char) → Option (Nat × List (Nat × Char))
  | _, [] => none
  | false, (i, c) :: rest =>
    if charIsNumeric c then symbolStart true rest
    else if isSymbolStartChar c then some (i, rest)
    else symbolStart false rest
  | true, (_, c) :: rest =>
    if isAsciiHexDigit c then symbolStart true rest
    else symbolStart false rest

/-- The `end_i` loop of `line_symaddr`: consume alphanumeric/underscore
characters; the first other character's index ends the symbol, and exhausting
the iterator ends it at `chars.offset()` (the line's length, passed as
`total`). -/
def symbolEnd (total : Nat) : List (Nat × Char) → Nat
  | [] => total
  | (i, c) :: rest => if isSymbolChar c then symbolEnd total rest else i

/-- The result of parsing one map line (struct `SymAddr`): the 32-bit
address, its byte range `addr_start..addr_start+8`, the symbol slice and its
byte range within the line. -/
structure SymAddr where
  addr : Nat
  addrRange : Nat × Nat
  symbol : List Char
  symbolRange : Nat × Nat
deriving DecidableEq, Repr

/-- `fn line_symaddr(line: &str) -> Option<SymAddr>`. -/
def lineSymaddr (line : List Char) : Option SymAddr :=
  let fa := findAddrGo 0 (lineBytes line)
  if fa.1 = 0 then none
  else
    match symbolStart false (charIndices line) with
    | none => none
    | some (startI, rest) =>
      let endI := symbolEnd line.length rest
      some { addr := fa.1, addrRange := (fa.2, fa.2 + 8),
             symbol := (line.drop startI).take (endI - startI),
             symbolRange := (startI, endI) }

/-- String literals to character lists, for concrete inputs. -/
def toChars (s : String) : List Char :=
  s.data

/-! ## The function symbol extractor (`extract`'s scan loop) -/

/-- `take_c_token`: an initial character check (ASCII alphabetic or
underscore, else an empty slice with the cursor unmoved), then a loop
consuming alphanumeric/underscore characters.  Returns the consumed slice and
the cursor's remainder. -/
def takeCToken (src : List Char) : List Char × List Char :=
  match src with
  | [] => ([], [])
  | c :: cs =>
    if isSymbolStartChar c then
      (c :: cs.takeWhile isSymbolChar, cs.dropWhile isSymbolChar)
    else ([], c :: cs)

/-- The `filter builtins` list of `extract`. -/
def cKeywords : List (List Char) :=
  [toChars "if", toChars "for", toChars "while", toChars "return",
   toChars "switch", toChars "case", toChars "sizeof", toChars "alignof",
   toChars "__attribute__"]

/-- One pass of `extract`'s `'find_fn` block: skip whitespace, take a C
token (abandon if empty), skip whitespace, require a run of `(` (abandon if
empty), skip whitespace, abandon if a run of `*` follows, abandon if the
token is a reserved keyword; otherwise emit the token.  Returns the emitted
token (if any) and the cursor where the block left it. -/
def extractStep (src : List Char) : Option (List Char) × List Char :=
  let s1 := src.dropWhile isAsciiWhitespace
  let tok := (takeCToken s1).1
  let s2 := (takeCToken s1).2
  if tok = [] then (none, s2)
  else
    let s3 := s2.dropWhile isAsciiWhitespace
    let parens := s3.takeWhile (fun c => c == '(')
    let s4 := s3.dropWhile (fun c => c == '(')
    if parens = [] then (none, s4)
    else
      let s5 := s4.dropWhile isAsciiWhitespace
      let stars := s5.takeWhile (fun c => c == '*')
      let s6 := s5.dropWhile (fun c => c == '*')
      if stars ≠ [] then (none, s6)
      else if tok ∈ cKeywords then (none, s6)
      else (some tok, s6)

/-- `extract`'s `while !src_iter.as_str().is_empty()` loop: run the
`'find_fn` block, then `take_while(|c| !c.is_ascii_alphabetic() && c != '_')`
to skip to the next candidate.  Fuel-indexed; every iteration on a non-empty
cursor consumes at least one character (`extractStep_progress`), so
`src.length + 1` fuel never runs out. -/
def extractGo : Nat → List Char → List (List Char)
  | 0, _ => []
  | _, [] => []
  | fuel + 1, c :: cs =>
    let step := extractStep (c :: cs)
    let rest := step.2.dropWhile (fun d => !(isSymbolStartChar d))
    (match step.1 with
     | some name => [name]
     | none => []) ++ extractGo fuel rest

/-- The scan of one source file's text by `extract`: the emitted candidate
function symbols, in order of occurrence. -/
def extract (src : List Char) : List (List Char) :=
  extractGo (src.length + 1) src

example : extract (toChars "if (x)") = [] := by rfl

example : extract (toChars "void (*callback)(int)") = [] := by rfl

example : extract (toChars "int main(void) { foo(1); }") =
    [toChars "main", toChars "foo"] := by rfl

/-! ## The map updater (`update`) -/

/-- `HashMap::insert` on the address → new-name table: a later binding for
the same address overwrites the earlier one.  Only `is_empty` and `get` are
ever applied to the table, so the association-list representation is
faithful. -/
def insertUpdate (tbl : List (Nat × List Char)) (addr : Nat) (sym : List Char) :
    List (Nat × List Char) :=
  (addr, sym) :: tbl.filter (fun p => !(p.1 == addr))

/-- The table-building loop of `update`: each piped line that parses via
`line_symaddr` inserts `addr → symbol`. -/
def buildUpdates (stdinLines : List (List Char)) : List (Nat × List Char) :=
  stdinLines.foldl
    (fun tbl line =>
      match lineSymaddr line with
      | some info => insertUpdate tbl info.addr info.symbol
      | none => tbl)
    []

/-- `mapfile[..i].rsplit_once('\n')`: split at the last newline, yielding the
text before it and the text after it. -/
def rsplitOnceNl : List Char → Option (List Char × List Char)
  | [] => none
  | c :: cs =>
    match rsplitOnceNl cs with
    | some (before, after) => some (c :: before, after)
    | none => if c == '\n' then some ([], cs) else none

/-- `update`'s backward rewrite loop.  State: the current file text and the
index `i` bounding the unprocessed prefix.  Each iteration splits
`mapfile[..i]` at its last newline; the text after that newline is the
current line, parsed with `line_symaddr` and — when its address is a key of
the table — rewritten in place at `line_start + symbol_range` (printing
`old -> new`, collected here as pairs).  Then `i = line_start` and, unless it
is zero, `i -= 1`.  Fuel-indexed: `i` strictly decreases every iteration, so
`i + 1` fuel never runs out. -/
def updateGo (updates : List (Nat × List Char)) :
    Nat → List Char → Nat → List Char × List (List Char × List Char)
  | 0, mapfile, _ => (mapfile, [])
  | fuel + 1, mapfile, i =>
    match rsplitOnceNl (mapfile.take i) with
    | none => (mapfile, [])
    | some (_, line) =>
      let lineStart := i - line.length
      let step : List Char × List (List Char × List Char) :=
        match lineSymaddr line with
        | none => (mapfile, [])
        | some info =>
          match List.lookup info.addr updates with
          | none => (mapfile, [])
          | some newSymbol =>
            let s := lineStart + info.symbolRange.1
            let e := lineStart + info.symbolRange.2
            let old := (mapfile.drop s).take (e - s)
            (mapfile.take s ++ newSymbol ++ mapfile.drop e, [(old, newSymbol)])
      if lineStart = 0 then step
      else
        let next := updateGo updates fuel step.1 (lineStart - 1)
        (next.1, step.2 ++ next.2)

/-- The observable outcome of the `update` command once the map file has been
read: the content passed to the final whole-file `fs::write` (`none` when
that write is never reached), and the `old -> new` pairs printed. -/
structure UpdateOutcome where
  written : Option (List Char)
  printed : List (List Char × List Char)
deriving DecidableEq, Repr

/-- `fn update` after a successful read of the map file: build the rename
table from the piped lines; if it is empty return at once (no write, nothing
printed); otherwise run the backward rewrite loop from `i = mapfile.len()`
and write the resulting text back. -/
def updateCmd (mapfile : List Char) (stdinLines : List (List Char)) :
    UpdateOutcome :=
  let updates := buildUpdates stdinLines
  if updates.isEmpty then ⟨none, []⟩
  else
    let r := updateGo updates (mapfile.length + 1) mapfile mapfile.length
    ⟨some r.1, r.2⟩

example : updateCmd (toChars "80010000 old_name\n")
    [toChars "new_name 80010000"] =
    ⟨some (toChars "80010000 old_name\n"), []⟩ := by rfl

example : updateCmd (toChars "head\n80010000 old_name\n")
    [toChars "new_name 80010000"] =
    ⟨some (toChars "head\n80010000 new_name\n"),
     [(toChars "old_name", toChars "new_name")]⟩ := by rfl

/-! ## Generic list helpers -/

theorem length_dropWhile_le (p : α → Bool) (l : List α) :
    (l.dropWhile p).length ≤ l.length := by
  induction l with
  | nil => simp
  | cons c cs ih =>
    by_cases h : p c
    · rw [List.dropWhile_cons_of_pos h]
      exact Nat.le_succ_of_le ih
    · rw [List.dropWhile_cons_of_neg h]

theorem head?_dropWhile_not (p : α → Bool) (l : List α) :
    ∀ x, (l.dropWhile p).head? = some x → p x = false := by
  induction l with
  | nil => simp
  | cons c cs ih =>
    intro x hx
    by_cases h : p c
    · rw [List.dropWhile_cons_of_pos h] at hx
      exact ih x hx
    · rw [List.dropWhile_cons_of_neg h] at hx
      simp only [List.head?_cons, Option.some.injEq] at hx
      subst hx
      exact Bool.eq_false_iff.mpr h

theorem drop_eq_cons_of_get? (l : List α) :
    ∀ n a, l.get? n = some a → l.drop n = a :: l.drop (n + 1) := by
  induction l with
  | nil => intro n a h; simp at h
  | cons c cs ih =>
    intro n a h
    cases n with
    | zero => simp at h; simp [h]
    | succ m =>
      simp only [List.get?_cons_succ] at h
      simpa using ih m a h

theorem take_length_takeWhile (p : α → Bool) (l : List α) :
    l.take (l.takeWhile p).length = l.takeWhile p := by
  induction l with
  | nil => simp
  | cons c cs ih =>
    by_cases h : p c
    · rw [List.takeWhile_cons_of_pos h]
      simpa using ih
    · rw [List.takeWhile_cons_of_neg h]
      simp

/-! ## Claim C8: `take_c_token` -/

/-- **C8.** `take_c_token` scans a C-style identifier: on `"foo123("` it
returns `"foo123"` with the cursor at `(`; on `"123abc"` it returns the empty
slice without advancing; the taken and remaining slices always partition the
input; a first character that is not ASCII alphabetic or underscore yields
the empty slice with no advance; and after a valid first character the token
continues through alphanumeric/underscore characters, stopping at the first
disqualifying character (which heads the remainder) or end of input. -/
theorem take_c_token_spec :
    takeCToken (toChars "foo123(") = (toChars "foo123", toChars "(") ∧
    takeCToken (toChars "123abc") = ([], toChars "123abc") ∧
    (∀ c cs, isSymbolStartChar c = false → takeCToken (c :: cs) = ([], c :: cs)) ∧
    (∀ s, (takeCToken s).1 ++ (takeCToken s).2 = s) ∧
    (∀ c cs, isSymbolStartChar c = true →
      (takeCToken (c :: cs)).1.head? = some c ∧
      (∀ d ∈ (takeCToken (c :: cs)).1.tail, isSymbolChar d = true) ∧
      (∀ d, (takeCToken (c :: cs)).2.head? = some d → isSymbolChar d = false)) := by
  refine ⟨by rfl, by rfl, ?_, ?_, ?_⟩
  · intro c cs h
    simp [takeCToken, h]
  · intro s
    match s with
    | [] => rfl
    | c :: cs =>
      by_cases h : isSymbolStartChar c
      · simp [takeCToken, h, List.takeWhile_append_dropWhile]
      · simp [takeCToken, h]
  · intro c cs h
    refine ⟨by simp [takeCToken, h], ?_, ?_⟩
    · intro d hd
      simp only [takeCToken, h, if_pos, List.tail_cons] at hd
      exact List.mem_takeWhile_imp hd
    · intro d hd
      simp only [takeCToken, h, if_pos] at hd
      exact head?_dropWhile_not _ _ d hd

/-- **C8 witness:** the token scanner applied at the concrete input `"a1+"`. -/
theorem take_c_token_spec_witness :
    (takeCToken (toChars "a1+")).1.head? = some 'a' ∧
    (∀ d ∈ (takeCToken (toChars "a1+")).1.tail, isSymbolChar d = true) ∧
    (∀ d, (takeCToken (toChars "a1+")).2.head? = some d → isSymbolChar d = false) :=
  take_c_token_spec.2.2.2.2 'a' (toChars "1+") (by rfl)

/-! ## Claim C7: the extractor's keyword and function-pointer filters -/

/-- When `extractStep` emits a token, the token is not a reserved keyword and
the cursor it leaves (just past the `(` run and the following whitespace) is
not at a `*`. -/
theorem extractStep_eq_some (src name rest : List Char) :
    extractStep src = (some name, rest) →
    name ∉ cKeywords ∧ rest.head? ≠ some '*' := by
  intro h
  simp only [extractStep] at h
  split at h
  · simp at h
  · split at h
    · simp at h
    · split at h
      · simp at h
      · split at h
        · simp at h
        · simp only [Prod.mk.injEq, Option.some.injEq] at h
          obtain ⟨rfl, rfl⟩ := h
          refine ⟨by assumption, ?_⟩
          intro hd
          have := head?_dropWhile_not (fun c => c == '*') _ '*' hd
          simp at this

/-- Every symbol `extractGo` ever emits comes from an emitting `extractStep`,
hence is not a reserved keyword. -/
theorem extractGo_not_keyword :
    ∀ fuel src name, name ∈ extractGo fuel src → name ∉ cKeywords := by
  intro fuel
  induction fuel with
  | zero => intro src name h; simp [extractGo] at h
  | succ n ih =>
    intro src name h
    match src with
    | [] => simp [extractGo] at h
    | c :: cs =>
      simp only [extractGo, List.mem_append] at h
      rcases h with h | h
      · rcases hstep : extractStep (c :: cs) with ⟨_ | nm, rest⟩
        · rw [hstep] at h; simp at h
        · rw [hstep] at h
          simp only [List.mem_singleton] at h
          subst h
          exact (extractStep_eq_some _ _ _ hstep).1
      · exact ih _ _ h

/-- **C7.** The Function Symbol Extractor never emits a reserved keyword
(`if`, `for`, `while`, `return`, `switch`, `case`, `sizeof`, `alignof`,
`__attribute__`), and it never emits at a site where the `(` is followed
(after whitespace) by `*`: whenever a step emits, the cursor it leaves —
positioned after the `(` run and the whitespace behind it — is not at a `*`.
In particular `"if (x)"` emits nothing and `"void (*callback)(int)"` emits
nothing. -/
theorem extract_keyword_and_fnptr_filter :
    (∀ src name, name ∈ extract src → name ∉ cKeywords) ∧
    (∀ src name rest, extractStep src = (some name, rest) →
      name ∉ cKeywords ∧ rest.head? ≠ some '*') ∧
    extract (toChars "if (x)") = [] ∧
    extract (toChars "void (*callback)(int)") = [] :=
  ⟨fun src => extractGo_not_keyword _ src, extractStep_eq_some, by rfl, by rfl⟩

/-- **C7 witness:** the filters applied at the concrete emitting site
`"foo (x)"`: the emitted `"foo"` is no keyword and the cursor after its `(`
is not at a `*`. -/
theorem extract_keyword_and_fnptr_filter_witness :
    toChars "foo" ∉ cKeywords ∧ (toChars "x)").head? ≠ some '*' :=
  extract_keyword_and_fnptr_filter.2.1 (toChars "foo (x)") (toChars "foo")
    (toChars "x)") (by rfl)

/-! ## The address search: claims C4 and C5 -/

/-- An 8-byte window at offset `j` qualifies: it exists, all of its bytes are
hexadecimal digits, and its value lies in `[0x80000000, 0x81800000)`. -/
def windowQualifies (bytes : List Nat) (j : Nat) : Bool :=
  decide (j + 8 ≤ bytes.length) &&
    match windowVal ((bytes.drop j).take 8) with
    | some v => decide (0x80000000 ≤ v ∧ v < 0x81800000)
    | none => false

theorem windowQualifies_cons (b : Nat) (bs : List Nat) (j : Nat) :
    windowQualifies (b :: bs) (j + 1) = windowQualifies bs j := by
  simp only [windowQualifies, List.drop_succ_cons, List.length_cons]
  congr 1
  exact decide_eq_decide.mpr (by omega)

/-- The first component of `findAddrGo` is either the sentinel `0` or a value
inside the accepted address window. -/
theorem findAddrGo_fst (bs : List Nat) : ∀ i,
    (findAddrGo i bs).1 = 0 ∨
    (0x80000000 ≤ (findAddrGo i bs).1 ∧ (findAddrGo i bs).1 < 0x81800000) := by
  induction bs with
  | nil => intro i; left; rfl
  | cons b rest ih =>
    intro i
    simp only [findAddrGo]
    split
    · left; rfl
    · split
      · split
        · right; assumption
        · exact ih (i + 1)
      · exact ih (i + 1)

/-- When `findAddrGo` returns a non-sentinel value, it returns the value and
offset of the leftmost qualifying window, and no earlier window qualifies. -/
theorem findAddrGo_spec (bs : List Nat) : ∀ i a s, findAddrGo i bs = (a, s) →
    a ≠ 0 →
    ∃ k, s = i + k ∧ windowQualifies bs k = true ∧
      windowVal ((bs.drop k).take 8) = some a ∧
      ∀ j < k, windowQualifies bs j = false := by
  induction bs with
  | nil =>
    intro i a s h ha
    simp only [findAddrGo] at h
    exact absurd (congrArg Prod.fst h.symm) ha
  | cons b rest ih =>
    intro i a s h ha
    simp only [findAddrGo] at h
    split at h
    · exact absurd (congrArg Prod.fst h.symm) ha
    · rename_i hlen
      split at h
      · rename_i v hv
        split at h
        · rename_i hrange
          obtain ⟨rfl, rfl⟩ := Prod.mk.injEq .. ▸ h
          refine ⟨0, by omega, ?_, by simpa using hv, by omega⟩
          simp only [windowQualifies, List.drop_zero, hv, List.length_cons]
          rw [decide_eq_true hrange, decide_eq_true (by omega : 0 + 8 ≤ rest.length + 1)]
          rfl
        · rename_i hrange
          obtain ⟨k, rfl, hq, hval, hbefore⟩ := ih (i + 1) a s h ha
          refine ⟨k + 1, by omega, by rwa [windowQualifies_cons], ?_, ?_⟩
          · rwa [List.drop_succ_cons]
          · intro j hj
            match j with
            | 0 =>
              simp only [windowQualifies, List.drop_zero, hv]
              rw [decide_eq_false hrange]
              exact Bool.and_false _
            | j' + 1 =>
              rw [windowQualifies_cons]
              exact hbefore j' (by omega)
      · rename_i hv
        obtain ⟨k, rfl, hq, hval, hbefore⟩ := ih (i + 1) a s h ha
        refine ⟨k + 1, by omega, by rwa [windowQualifies_cons], ?_, ?_⟩
        · rwa [List.drop_succ_cons]
        · intro j hj
          match j with
          | 0 =>
            simp only [windowQualifies, List.drop_zero, hv]
            exact Bool.and_false _
          | j' + 1 =>
            rw [windowQualifies_cons]
            exact hbefore j' (by omega)

/-- When no window of the byte list qualifies, `findAddrGo` returns the
sentinel `(0, 0)`. -/
theorem findAddrGo_of_no_qual (bs : List Nat) :
    ∀ i, (∀ j, windowQualifies bs j = false) → findAddrGo i bs = (0, 0) := by
  induction bs with
  | nil => intro i _; rfl
  | cons b rest ih =>
    intro i hq
    simp only [findAddrGo]
    split
    · rfl
    · rename_i hlen
      split
      · rename_i v hv
        split
        · rename_i hrange
          exfalso
          have h0 := hq 0
          simp only [windowQualifies, List.drop_zero, hv, List.length_cons] at h0
          rw [decide_eq_true hrange,
            decide_eq_true (by omega : 0 + 8 ≤ rest.length + 1)] at h0
          simp at h0
        · exact ih (i + 1) fun j => by
            have := hq (j + 1); rwa [windowQualifies_cons] at this
      · exact ih (i + 1) fun j => by
          have := hq (j + 1); rwa [windowQualifies_cons] at this

/-- Inversion of `lineSymaddr` on a `some` result: the address part comes
from the window scan's non-sentinel result, and the symbol part from a
fresh scan of the whole line's character iterator. -/
theorem lineSymaddr_inv (line : List Char) (r : SymAddr) :
    lineSymaddr line = some r →
    (findAddrGo 0 (lineBytes line)).1 ≠ 0 ∧
    r.addr = (findAddrGo 0 (lineBytes line)).1 ∧
    r.addrRange = ((findAddrGo 0 (lineBytes line)).2,
      (findAddrGo 0 (lineBytes line)).2 + 8) ∧
    ∃ rest, symbolStart false (charIndices line) = some (r.symbolRange.1, rest) ∧
      r.symbolRange.2 = symbolEnd line.length rest ∧
      r.symbol = (line.drop r.symbolRange.1).take
        (r.symbolRange.2 - r.symbolRange.1) := by
  intro h
  simp only [lineSymaddr] at h
  split at h
  · simp at h
  · rename_i hne
    split at h
    · simp at h
    · rename_i startI rest hscan
      simp only [Option.some.injEq] at h
      subst h
      exact ⟨hne, rfl, rfl, rest, hscan, rfl, rfl⟩

/-- **C4.** Addresses are accepted only inside `[0x80000000, 0x81800000)`:
`"7FFFFFFF tag"` and `"81800000 tag"` parse to `none`, `"80000000 tag"`
parses with address `0x80000000`, and every `some` result of `line_symaddr`
carries an address in that window. -/
theorem addr_window_bounds :
    lineSymaddr (toChars "7FFFFFFF tag") = none ∧
    lineSymaddr (toChars "81800000 tag") = none ∧
    (lineSymaddr (toChars "80000000 tag")).map SymAddr.addr = some 0x80000000 ∧
    (∀ line r, lineSymaddr line = some r →
      0x80000000 ≤ r.addr ∧ r.addr < 0x81800000) := by
  refine ⟨by rfl, by rfl, by rfl, ?_⟩
  intro line r h
  obtain ⟨hne, haddr, -, -⟩ := lineSymaddr_inv line r h
  rcases findAddrGo_fst (lineBytes line) 0 with h0 | hr
  · exact absurd h0 hne
  · rw [haddr]; exact hr

/-- **C4 witness:** the window bound applied to the concrete parse of
`"80000000 tag"`. -/
theorem addr_window_bounds_witness :
    0x80000000 ≤ SymAddr.addr ⟨0x80000000, (0, 8), toChars "tag", (9, 12)⟩ ∧
    SymAddr.addr ⟨0x80000000, (0, 8), toChars "tag", (9, 12)⟩ < 0x81800000 :=
  addr_window_bounds.2.2.2 (toChars "80000000 tag") _ (by rfl)

/-- **C5.** The address search accepts the leftmost 8-byte window of hex
digits whose value lies in the window — every earlier offset fails to
qualify — and when no window of the line qualifies the parser returns `none`
for the whole line (so no symbol search happens). -/
theorem addr_first_qualifying_window :
    (∀ line r, lineSymaddr line = some r →
      windowQualifies (lineBytes line) r.addrRange.1 = true ∧
      windowVal (((lineBytes line).drop r.addrRange.1).take 8) = some r.addr ∧
      ∀ j < r.addrRange.1, windowQualifies (lineBytes line) j = false) ∧
    (∀ line, (∀ j, windowQualifies (lineBytes line) j = false) →
      lineSymaddr line = none) := by
  constructor
  · intro line r h
    obtain ⟨hne, haddr, hrange, -⟩ := lineSymaddr_inv line r h
    obtain ⟨k, hk, hq, hval, hbefore⟩ :=
      findAddrGo_spec (lineBytes line) 0 (findAddrGo 0 (lineBytes line)).1
        (findAddrGo 0 (lineBytes line)).2 rfl hne
    have hr1 : r.addrRange.1 = k := by rw [hrange]; simpa using hk
    rw [hr1, haddr]
    exact ⟨hq, hval, hbefore⟩
  · intro line hq
    simp [lineSymaddr, findAddrGo_of_no_qual _ 0 hq]

/-- **C5 witness:** a line with no qualifying window (`"hello"`, shorter than
8 bytes) parses to `none`. -/
theorem addr_first_qualifying_window_witness :
    lineSymaddr (toChars "hello") = none :=
  addr_first_qualifying_window.2 (toChars "hello") fun j => by
    have : ¬ (j + 8 ≤ (lineBytes (toChars "hello")).length) := by
      simp [lineBytes, toChars]
    simp [windowQualifies, this]

/-! ## The symbol scan: claims C6, C10 and C2 -/

theorem length_takeWhile_le (p : α → Bool) (l : List α) :
    (l.takeWhile p).length ≤ l.length := by
  induction l with
  | nil => simp
  | cons c cs ih =>
    by_cases h : p c
    · rw [List.takeWhile_cons_of_pos h]
      simpa using ih
    · rw [List.takeWhile_cons_of_neg h]
      simp

/-- A `some` result of the symbol-start scan names an in-bounds position
holding an identifier-start character, and leaves the iterator just past that
character. -/
theorem symbolStart_spec (l : List Char) : ∀ (n : Nat) (ph : Bool) i rest,
    symbolStart ph (charIndicesFrom n l) = some (i, rest) →
    ∃ k c, i = n + k ∧ l.get? k = some c ∧ isSymbolStartChar c = true ∧
      rest = charIndicesFrom (n + k + 1) (l.drop (k + 1)) := by
  induction l with
  | nil => intro n ph i rest h; cases ph <;> simp [charIndicesFrom, symbolStart] at h
  | cons c cs ih =>
    intro n ph i rest h
    simp only [charIndicesFrom] at h
    cases ph
    · simp only [symbolStart] at h
      split at h
      · obtain ⟨k, d, rfl, hget, hstart, hrest⟩ := ih (n + 1) true i rest h
        exact ⟨k + 1, d, by omega, by simpa using hget, hstart, by
          simpa [Nat.add_assoc, Nat.add_comm, Nat.add_left_comm] using hrest⟩
      · split at h
        · rename_i hstart
          simp only [Option.some.injEq, Prod.mk.injEq] at h
          obtain ⟨rfl, rfl⟩ := h
          exact ⟨0, c, by omega, rfl, hstart, by simp⟩
        · obtain ⟨k, d, rfl, hget, hstart, hrest⟩ := ih (n + 1) false i rest h
          exact ⟨k + 1, d, by omega, by simpa using hget, hstart, by
            simpa [Nat.add_assoc, Nat.add_comm, Nat.add_left_comm] using hrest⟩
    · simp only [symbolStart] at h
      split at h
      · obtain ⟨k, d, rfl, hget, hstart, hrest⟩ := ih (n + 1) true i rest h
        exact ⟨k + 1, d, by omega, by simpa using hget, hstart, by
          simpa [Nat.add_assoc, Nat.add_comm, Nat.add_left_comm] using hrest⟩
      · obtain ⟨k, d, rfl, hget, hstart, hrest⟩ := ih (n + 1) false i rest h
        exact ⟨k + 1, d, by omega, by simpa using hget, hstart, by
          simpa [Nat.add_assoc, Nat.add_comm, Nat.add_left_comm] using hrest⟩

/-- In the hex-skip phase the scan always consumes at least the current
character before a start can be returned. -/
theorem symbolStart_true_lb (l : List Char) (n i : Nat) (rest : List (Nat × Char)) :
    symbolStart true (charIndicesFrom n l) = some (i, rest) → n + 1 ≤ i := by
  cases l with
  | nil => intro h; simp [charIndicesFrom, symbolStart] at h
  | cons c cs =>
    intro h
    simp only [charIndicesFrom, symbolStart] at h
    split at h
    · obtain ⟨k, d, rfl, -⟩ := symbolStart_spec cs (n + 1) true i rest h
      omega
    · obtain ⟨k, d, rfl, -⟩ := symbolStart_spec cs (n + 1) false i rest h
      omega

/-- The character immediately before a returned symbol start was consumed
either by the scan loop's catch-all arm (so it is neither numeric nor an
identifier start) or by the hex-skip loop's terminating `next()` (so it is
not a hexadecimal digit).  In particular it is never an ASCII digit. -/
theorem symbolStart_pred (l : List Char) : ∀ (n : Nat) (ph : Bool) i rest,
    symbolStart ph (charIndicesFrom n l) = some (i, rest) →
    ∀ k d, i = n + k + 1 → l.get? k = some d →
      (charIsNumeric d = false ∧ isSymbolStartChar d = false) ∨
      isAsciiHexDigit d = false := by
  induction l with
  | nil => intro n ph i rest h; cases ph <;> simp [charIndicesFrom, symbolStart] at h
  | cons c cs ih =>
    intro n ph i rest h k d hik hget
    simp only [charIndicesFrom] at h
    cases ph
    · simp only [symbolStart] at h
      split at h
      · match k with
        | 0 =>
          have := symbolStart_true_lb cs (n + 1) i rest h
          omega
        | k' + 1 =>
          exact ih (n + 1) true i rest h k' d (by omega) (by simpa using hget)
      · split at h
        · simp only [Option.some.injEq, Prod.mk.injEq] at h
          omega
        · rename_i hnum hstart
          match k with
          | 0 =>
            simp only [List.get?_cons_zero, Option.some.injEq] at hget
            subst hget
            left
            exact ⟨by simpa using hnum, by simpa using hstart⟩
          | k' + 1 =>
            exact ih (n + 1) false i rest h k' d (by omega) (by simpa using hget)
    · simp only [symbolStart] at h
      split at h
      · match k with
        | 0 =>
          have := symbolStart_true_lb cs (n + 1) i rest h
          omega
        | k' + 1 =>
          exact ih (n + 1) true i rest h k' d (by omega) (by simpa using hget)
      · rename_i hhex
        match k with
        | 0 =>
          simp only [List.get?_cons_zero, Option.some.injEq] at hget
          subst hget
          right
          simpa using hhex
        | k' + 1 =>
          exact ih (n + 1) false i rest h k' d (by omega) (by simpa using hget)

/-- The end scan consumes the maximal alphanumeric/underscore run: it stops
at the first other character's index, or at `total` when the iterator is
exhausted. -/
theorem symbolEnd_spec (l : List Char) : ∀ (n total : Nat),
    symbolEnd total (charIndicesFrom n l) =
      if (l.takeWhile isSymbolChar).length = l.length then total
      else n + (l.takeWhile isSymbolChar).length := by
  induction l with
  | nil => intro n total; simp [charIndicesFrom, symbolEnd]
  | cons c cs ih =>
    intro n total
    simp only [charIndicesFrom, symbolEnd]
    by_cases h : isSymbolChar c
    · rw [if_pos h, ih (n + 1) total, List.takeWhile_cons_of_pos h]
      simp only [List.length_cons]
      by_cases h2 : (cs.takeWhile isSymbolChar).length = cs.length
      · rw [if_pos h2, if_pos (by omega)]
      · rw [if_neg h2, if_neg (by omega)]
        omega
    · rw [if_neg h, List.takeWhile_cons_of_neg h]
      simp only [List.length_nil, List.length_cons]
      rw [if_neg (by omega)]
      omega

/-- Decomposing a character-index listing around one entry: the entry's index
is its position, the underlying character is at that position of the line,
and the remainder lists the following positions. -/
theorem charIndicesFrom_decomp (l : List Char) :
    ∀ (pre suf : List (Nat × Char)) (n j : Nat) (c : Char),
    charIndicesFrom n l = pre ++ (j, c) :: suf →
    j = n + pre.length ∧ l.get? pre.length = some c ∧
      suf = charIndicesFrom (j + 1) (l.drop (pre.length + 1)) := by
  induction l with
  | nil => intro pre suf n j c h; simp [charIndicesFrom] at h
  | cons a as ih =>
    intro pre suf n j c h
    simp only [charIndicesFrom] at h
    match pre with
    | [] =>
      simp only [List.nil_append, List.cons.injEq, Prod.mk.injEq] at h
      obtain ⟨⟨rfl, rfl⟩, h2⟩ := h
      exact ⟨by simp, rfl, by simpa using h2.symm⟩
    | p :: ps =>
      simp only [List.cons_append, List.cons.injEq] at h
      obtain ⟨rfl, h2⟩ := h
      obtain ⟨hj, hget, hsuf⟩ := ih ps suf (n + 1) j c h2
      refine ⟨by simp [hj]; omega, by simpa using hget, ?_⟩
      simpa using hsuf

/-- **C6.** `line_symaddr` on `"80010000 my_symbol_name"` yields address
`0x80010000` (range `0..8`) and symbol `"my_symbol_name"` (range `9..23`);
and in general the symbol scan runs over a character iterator freshly created
from the whole line, starting at position 0 independent of where the address
window was found. -/
theorem line_symaddr_example_and_scan_origin :
    lineSymaddr (toChars "80010000 my_symbol_name") =
      some ⟨0x80010000, (0, 8), toChars "my_symbol_name", (9, 23)⟩ ∧
    (∀ line r, lineSymaddr line = some r →
      ∃ rest, symbolStart false (charIndices line) = some (r.symbolRange.1, rest) ∧
        r.symbolRange.2 = symbolEnd line.length rest) := by
  refine ⟨by rfl, ?_⟩
  intro line r h
  obtain ⟨-, -, -, rest, hscan, hend, -⟩ := lineSymaddr_inv line r h
  exact ⟨rest, hscan, hend⟩

/-- **C6 witness:** the scan-origin characterization applied to the concrete
parse of `"80010000 foo"`. -/
theorem line_symaddr_example_and_scan_origin_witness :
    ∃ rest, symbolStart false (charIndices (toChars "80010000 foo")) =
      some ((9 : Nat), rest) ∧
      (12 : Nat) = symbolEnd (toChars "80010000 foo").length rest :=
  line_symaddr_example_and_scan_origin.2 (toChars "80010000 foo")
    ⟨0x80010000, (0, 8), toChars "foo", (9, 12)⟩ (by rfl)

/-- **C10.** Every `some` result of `line_symaddr` carries a non-empty symbol
that is exactly the slice of the line at its (in-bounds) range, starting with
an ASCII alphabetic or underscore character and continuing with ASCII
alphanumeric or underscore characters only. -/
theorem symbol_slice_invariants :
    ∀ line r, lineSymaddr line = some r →
      r.symbolRange.1 < r.symbolRange.2 ∧
      r.symbolRange.2 ≤ line.length ∧
      r.symbol = (line.drop r.symbolRange.1).take
        (r.symbolRange.2 - r.symbolRange.1) ∧
      r.symbol ≠ [] ∧
      (∀ c, r.symbol.head? = some c → isSymbolStartChar c = true) ∧
      (∀ c ∈ r.symbol.tail, isSymbolChar c = true) := by
  intro line r h
  obtain ⟨-, -, -, rest, hscan, hend, hsym⟩ := lineSymaddr_inv line r h
  obtain ⟨k, c, hik, hget, hstart, hrest⟩ := symbolStart_spec line 0 false _ _ hscan
  have hk1 : r.symbolRange.1 = k := by omega
  have hklen : k < line.length := (List.get?_eq_some.mp hget).1
  have hlen' : (line.drop (k + 1)).length = line.length - (k + 1) :=
    List.length_drop _ _
  have htle : ((line.drop (k + 1)).takeWhile isSymbolChar).length ≤
      (line.drop (k + 1)).length := length_takeWhile_le _ _
  have he : r.symbolRange.2 =
      if ((line.drop (k + 1)).takeWhile isSymbolChar).length =
          (line.drop (k + 1)).length
      then line.length
      else (k + 1) + ((line.drop (k + 1)).takeWhile isSymbolChar).length := by
    rw [hend, hrest, symbolEnd_spec]
    simp only [Nat.zero_add]
  have h12 : r.symbolRange.1 < r.symbolRange.2 := by
    rw [hk1, he]; split <;> omega
  have h2len : r.symbolRange.2 ≤ line.length := by
    rw [he]; split <;> omega
  have hdrop : line.drop k = c :: line.drop (k + 1) :=
    drop_eq_cons_of_get? line k c hget
  obtain ⟨m, hm⟩ : ∃ m, r.symbolRange.2 - r.symbolRange.1 = m + 1 :=
    ⟨r.symbolRange.2 - r.symbolRange.1 - 1, by omega⟩
  have hsym2 : r.symbol = c :: (line.drop (k + 1)).take m := by
    rw [hsym, hm, hk1, hdrop, List.take_succ_cons]
  have hmem : ∀ d ∈ (line.drop (k + 1)).take m, isSymbolChar d = true := by
    intro d hd
    have hmm : (line.drop (k + 1)).take m =
        ((line.drop (k + 1)).takeWhile isSymbolChar).take m := by
      by_cases hc : ((line.drop (k + 1)).takeWhile isSymbolChar).length =
          (line.drop (k + 1)).length
      · have hwhole : (line.drop (k + 1)).takeWhile isSymbolChar =
            line.drop (k + 1) := by
          have := take_length_takeWhile isSymbolChar (line.drop (k + 1))
          rw [hc, List.take_length _] at this
          exact this.symm
        rw [hwhole]
      · have hme : m = ((line.drop (k + 1)).takeWhile isSymbolChar).length := by
          rw [he, if_neg hc] at hm
          omega
        rw [hme, take_length_takeWhile, List.take_length _]
    rw [hmm] at hd
    exact List.mem_takeWhile_imp (List.mem_of_mem_take hd)
  refine ⟨h12, h2len, hsym, by rw [hsym2]; simp, ?_, ?_⟩
  · intro d hd
    rw [hsym2] at hd
    simp only [List.head?_cons, Option.some.injEq] at hd
    subst hd
    exact hstart
  · intro d hd
    rw [hsym2] at hd
    simp only [List.tail_cons] at hd
    exact hmem d hd

/-- **C10 witness:** the symbol invariants at the concrete parse of
`"80010000 foo"`. -/
theorem symbol_slice_invariants_witness :
    (9 : Nat) < 12 ∧ (12 : Nat) ≤ (toChars "80010000 foo").length ∧
    toChars "foo" = ((toChars "80010000 foo").drop 9).take (12 - 9) ∧
    toChars "foo" ≠ [] ∧
    (∀ c, (toChars "foo").head? = some c → isSymbolStartChar c = true) ∧
    (∀ c ∈ (toChars "foo").tail, isSymbolChar c = true) :=
  symbol_slice_invariants (toChars "80010000 foo")
    ⟨0x80010000, (0, 8), toChars "foo", (9, 12)⟩ (by rfl)

/-- **C2 counterexample.** There is no line at all — with or without a `0x`
prefix on its address — on which the symbol returned by `line_symaddr`
begins at an `x` immediately preceded by a `0`: the hex-skip loop's
terminating `next()` consumes such an `x`, so the scan can never return it
as the identifier start. -/
theorem no_symbol_starts_at_skipped_x :
    (∃ (line : List Char) (r : SymAddr) (pre suf : List (Nat × Char))
        (j s : Nat),
      lineSymaddr line = some r ∧
      charIndices line = pre ++ (j, '0') :: (s, 'x') :: suf ∧
      r.symbolRange.1 = s) ↔ False := by
  rw [iff_false]
  rintro ⟨line, r, pre, suf, j, s, hsome, hdec, hstart⟩
  obtain ⟨hj, hget0, hsuf⟩ :=
    charIndicesFrom_decomp line pre ((s, 'x') :: suf) 0 j '0' hdec
  have hs : s = j + 1 := by
    rcases hdropc : line.drop (pre.length + 1) with _ | ⟨d, ds⟩
    · rw [hdropc] at hsuf; simp [charIndicesFrom] at hsuf
    · rw [hdropc] at hsuf
      simp only [charIndicesFrom, List.cons.injEq, Prod.mk.injEq] at hsuf
      exact hsuf.1.1
  obtain ⟨-, -, -, rest, hscan, -, -⟩ := lineSymaddr_inv line r hsome
  rw [hstart, hs] at hscan
  have hpred := symbolStart_pred line 0 false (j + 1) rest hscan
    pre.length '0' (by omega) hget0
  rcases hpred with ⟨h1, -⟩ | h2
  · exact absurd h1 (by decide)
  · exact absurd h2 (by decide)

/-- **C2 (amended).** On a line whose address carries a leading `0x`-style
prefix, the digit `0` does trigger the hex-skip branch and the skip does stop
at the `x` — but the `x` is consumed by the very iterator step that ends the
skip, so the scan resumes after it and the symbol never begins with that
`x`: `"0x80010000 sym"` parses to address `0x80010000` with symbol `"sym"`. -/
theorem zero_x_prefixed_line_parse :
    lineSymaddr (toChars "0x80010000 sym") =
      some ⟨0x80010000, (2, 10), toChars "sym", (11, 14)⟩ := by rfl

/-! ## The update command: claims C3, C9 and C1 -/

/-- **C3.** When no piped line parses to a valid address the rename table
stays empty, and `update` returns before the rewrite loop: nothing is
written and nothing is printed, so the map file is untouched. -/
theorem update_noop_without_parsed_addr :
    ∀ mapfile stdinLines,
      (∀ line ∈ stdinLines, lineSymaddr line = none) →
      updateCmd mapfile stdinLines = ⟨none, []⟩ := by
  intro mapfile stdinLines hnone
  have hempty : buildUpdates stdinLines = [] := by
    suffices h : ∀ (ls : List (List Char)) (tbl : List (Nat × List Char)),
        (∀ line ∈ ls, lineSymaddr line = none) →
        ls.foldl
          (fun tbl line =>
            match lineSymaddr line with
            | some info => insertUpdate tbl info.addr info.symbol
            | none => tbl)
          tbl = tbl by
      exact h stdinLines [] hnone
    intro ls
    induction ls with
    | nil => intro tbl _; rfl
    | cons l ls ih =>
      intro tbl hn
      simp only [List.foldl_cons]
      rw [hn l (by simp)]
      exact ih tbl fun x hx => hn x (by simp [hx])
  simp [updateCmd, hempty]

/-- **C3 witness:** a piped line with no parseable address leaves the map
file alone and prints nothing. -/
theorem update_noop_without_parsed_addr_witness :
    updateCmd (toChars "80010000 name\n") [toChars "hello"] = ⟨none, []⟩ :=
  update_noop_without_parsed_addr (toChars "80010000 name\n") [toChars "hello"]
    fun line hline => by
      simp only [List.mem_singleton] at hline
      subst hline
      rfl

/-- A rewrite pass that prints nothing leaves the file text unchanged. -/
theorem updateGo_printed_nil (updates : List (Nat × List Char)) :
    ∀ fuel mapfile i,
      (updateGo updates fuel mapfile i).2 = [] →
      (updateGo updates fuel mapfile i).1 = mapfile := by
  intro fuel
  induction fuel with
  | zero => intro mf i _; rfl
  | succ n ih =>
    intro mf i hp
    simp only [updateGo] at hp ⊢
    rcases hr : rsplitOnceNl (mf.take i) with _ | ⟨b, line⟩
    · simp only [hr]
    · simp only [hr] at hp ⊢
      rcases hls : lineSymaddr line with _ | info
      · simp only [hls] at hp ⊢
        by_cases hz : i - line.length = 0
        · simp only [if_pos hz]
        · simp only [if_neg hz] at hp ⊢
          exact ih mf (i - line.length - 1) (by simpa using hp)
      · simp only [hls] at hp ⊢
        rcases hlk : List.lookup info.addr updates with _ | newSymbol
        · simp only [hlk] at hp ⊢
          by_cases hz : i - line.length = 0
          · simp only [if_pos hz]
          · simp only [if_neg hz] at hp ⊢
            exact ih mf (i - line.length - 1) (by simpa using hp)
        · simp only [hlk] at hp ⊢
          by_cases hz : i - line.length = 0
          · simp only [if_pos hz] at hp
            simp at hp
          · simp only [if_neg hz] at hp
            simp at hp

/-- **C9.** Whenever the rename table built from the piped lines is
non-empty, `update` reaches the final whole-file write — some content is
always written back — and if no replacement was printed the written content
is exactly the original file text. -/
theorem update_always_writes_when_table_nonempty :
    ∀ mapfile stdinLines, buildUpdates stdinLines ≠ [] →
      (∃ content, (updateCmd mapfile stdinLines).written = some content) ∧
      ((updateCmd mapfile stdinLines).printed = [] →
        (updateCmd mapfile stdinLines).written = some mapfile) := by
  intro mf ls hne
  have hni : (buildUpdates ls).isEmpty = false := by
    rcases h : buildUpdates ls with _ | ⟨p, t⟩
    · exact absurd h hne
    · rfl
  constructor
  · exact ⟨(updateGo (buildUpdates ls) (mf.length + 1) mf mf.length).1,
      by simp [updateCmd, hni]⟩
  · intro hp
    simp only [updateCmd, hni, Bool.false_eq_true, if_false] at hp ⊢
    rw [updateGo_printed_nil _ _ _ _ hp]

/-- **C9 witness:** a non-empty table whose address occurs nowhere in the map
file: the file is still written, byte-identical to the original. -/
theorem update_always_writes_when_table_nonempty_witness :
    (∃ content,
      (updateCmd (toChars "hello\n") [toChars "new_name 80010000"]).written =
        some content) ∧
    ((updateCmd (toChars "hello\n") [toChars "new_name 80010000"]).printed = [] →
      (updateCmd (toChars "hello\n") [toChars "new_name 80010000"]).written =
        some (toChars "hello\n")) :=
  update_always_writes_when_table_nonempty (toChars "hello\n")
    [toChars "new_name 80010000"] (by decide)

/-- **C1 (as the code behaves).** On the single-line map file
`"80010000 old_name\n"` with piped input `"new_name 80010000"`, the rename
table does contain `0x80010000 → "new_name"`, yet `update` writes the file
back unchanged and prints nothing: the backward scan only ever processes text
standing after a newline of the remaining prefix, and the file's first line
follows no newline, so it is never parsed. -/
theorem update_single_line_file_unchanged :
    updateCmd (toChars "80010000 old_name\n") [toChars "new_name 80010000"] =
      ⟨some (toChars "80010000 old_name\n"), []⟩ ∧
    buildUpdates [toChars "new_name 80010000"] =
      [(0x80010000, toChars "new_name")] :=
  ⟨by rfl, by rfl⟩

/-- Sanity check for the claim above: on any line other than the first the
rewrite does happen — the same rename applied to a two-line file replaces the
second line's symbol and reports it. -/
theorem update_renames_non_first_line :
    updateCmd (toChars "head\n80010000 old_name\n")
      [toChars "new_name 80010000"] =
      ⟨some (toChars "head\n80010000 new_name\n"),
       [(toChars "old_name", toChars "new_name")]⟩ := by rfl

/-! ## Adequacy of the fuel parameters

The two fuel-indexed loop models are insensitive to the fuel as long as it
dominates the loop's own termination measure, so the `length + 1` fuel the
entry points pass makes them models of the unbounded Rust loops. -/

/-- `rsplit_once('\n')` really splits at a newline: the input is the
concatenation of the two parts around one `'\n'`. -/
theorem rsplitOnceNl_eq (s : List Char) :
    ∀ b l, rsplitOnceNl s = some (b, l) → s = b ++ '\n' :: l := by
  induction s with
  | nil => intro b l h; simp [rsplitOnceNl] at h
  | cons c cs ih =>
    intro b l h
    simp only [rsplitOnceNl] at h
    rcases hr : rsplitOnceNl cs with _ | ⟨b2, l2⟩
    · rw [hr] at h
      simp only at h
      split at h
      · rename_i hc
        simp only [Option.some.injEq, Prod.mk.injEq] at h
        obtain ⟨rfl, rfl⟩ := h
        simp only [List.nil_append]
        rw [show c = '\n' from by simpa using hc]
      · simp at h
    · rw [hr] at h
      simp only [Option.some.injEq, Prod.mk.injEq] at h
      obtain ⟨rfl, rfl⟩ := h
      simp [ih b2 l2 hr]

/-- Each iteration of the extract loop consumes at least one character of the
cursor, counting the trailing skip to the next candidate. -/
theorem extractStep_progress (src : List Char) (h : src ≠ []) :
    ((extractStep src).2.dropWhile fun d => !(isSymbolStartChar d)).length
      < src.length := by
  have hsrc : 0 < src.length := List.length_pos.mpr h
  have hs1 : (src.dropWhile isAsciiWhitespace).length ≤ src.length :=
    length_dropWhile_le _ _
  rcases he : src.dropWhile isAsciiWhitespace with _ | ⟨c, cs⟩
  · have hnil : extractStep src = (none, []) := by
      simp [extractStep, he, takeCToken]
    rw [hnil]
    simpa using hsrc
  · have hcs : cs.length + 1 ≤ src.length := by
      have := he ▸ hs1
      simpa using this
    by_cases hc : isSymbolStartChar c = true
    · have h2 : ((takeCToken (c :: cs)).2).length ≤ cs.length := by
        simp only [takeCToken, hc, if_true]
        exact length_dropWhile_le _ _
      have hbound : ∀ Y : List Char, Y.length ≤ cs.length →
          ((Y.dropWhile fun d => !(isSymbolStartChar d)).length) < src.length := by
        intro Y hY
        calc (Y.dropWhile fun d => !(isSymbolStartChar d)).length
            ≤ Y.length := length_dropWhile_le _ _
          _ ≤ cs.length := hY
          _ < src.length := by omega
      have h4 : (((takeCToken (c :: cs)).2.dropWhile isAsciiWhitespace).dropWhile
          (fun d => d == '(')).length ≤ cs.length :=
        le_trans (length_dropWhile_le _ _) (le_trans (length_dropWhile_le _ _) h2)
      have h6 : (((((takeCToken (c :: cs)).2.dropWhile isAsciiWhitespace).dropWhile
          (fun d => d == '(')).dropWhile isAsciiWhitespace).dropWhile
          (fun d => d == '*')).length ≤ cs.length :=
        le_trans (length_dropWhile_le _ _) (le_trans (length_dropWhile_le _ _) h4)
      simp only [extractStep, he]
      split
      · exact hbound _ h2
      · split
        · exact hbound _ h4
        · split
          · exact hbound _ h6
          · split
            · exact hbound _ h6
            · exact hbound _ h6
    · have hc' : isSymbolStartChar c = false := by simpa using hc
      have hstep : extractStep src = (none, c :: cs) := by
        simp [extractStep, he, takeCToken, hc']
      rw [hstep]
      show ((c :: cs).dropWhile fun d => !(isSymbolStartChar d)).length < src.length
      rw [List.dropWhile_cons_of_pos (by simp [hc'])]
      calc (cs.dropWhile fun d => !(isSymbolStartChar d)).length
          ≤ cs.length := length_dropWhile_le _ _
        _ < src.length := by omega

/-- Any fuel beyond the text's length yields the same extraction: the fuel in
`extract` is immaterial, as for the unbounded `while` loop it models. -/
theorem extractGo_fuel : ∀ fuel₁ fuel₂ (src : List Char),
    src.length < fuel₁ → src.length < fuel₂ →
    extractGo fuel₁ src = extractGo fuel₂ src := by
  intro fuel₁
  induction fuel₁ with
  | zero => intro fuel₂ src h1; omega
  | succ n ih =>
    intro fuel₂ src h1 h2
    match fuel₂, src with
    | f2, [] => cases f2 <;> rfl
    | 0, _ :: _ => omega
    | m + 1, c :: cs =>
      have hp : ((extractStep (c :: cs)).2.dropWhile
          fun d => !(isSymbolStartChar d)).length < cs.length + 1 := by
        simpa using extractStep_progress (c :: cs) (by simp)
      have hn : cs.length + 1 ≤ n := by
        simpa using Nat.lt_succ_iff.mp h1
      have hm : cs.length + 1 ≤ m := by
        simpa using Nat.lt_succ_iff.mp h2
      simp only [extractGo]
      rw [ih m _ (by omega) (by omega)]

/-- Any fuel beyond the scan index yields the same rewrite: the fuel in
`updateCmd` is immaterial, as for the unbounded `while` loop it models. -/
theorem updateGo_fuel (updates : List (Nat × List Char)) :
    ∀ fuel₁ fuel₂ (mapfile : List Char) (i : Nat),
      i < fuel₁ → i < fuel₂ →
      updateGo updates fuel₁ mapfile i = updateGo updates fuel₂ mapfile i := by
  intro fuel₁
  induction fuel₁ with
  | zero => intro fuel₂ mf i h1; omega
  | succ n ih =>
    intro fuel₂ mf i h1 h2
    match fuel₂ with
    | 0 => omega
    | m + 1 =>
      simp only [updateGo]
      rcases hr : rsplitOnceNl (mf.take i) with _ | ⟨b, line⟩
      · rfl
      · have hlen : line.length < i := by
          have hsplit := rsplitOnceNl_eq (mf.take i) b line hr
          have htake : (mf.take i).length ≤ i := by
            rw [List.length_take]
            exact min_le_left _ _
          rw [hsplit] at htake
          simp only [List.length_append, List.length_cons] at htake
          omega
        by_cases hz : i - line.length = 0
        · simp only [if_pos hz]
        · simp only [if_neg hz]
          rw [ih m _ (i - line.length - 1) (by omega) (by omega)]

example : lineSymaddr (toChars "80010000 my_symbol_name") =
    some ⟨0x80010000, (0, 8), toChars "my_symbol_name", (9, 23)⟩ := by rfl

example : lineSymaddr (toChars "7FFFFFFF tag") = none := by rfl

example : lineSymaddr (toChars "0x80010000 sym") =
    some ⟨0x80010000, (2, 10), toChars "sym", (11, 14)⟩ := by rfl

end Symtool
